import Mathlib

/-!
Verification of the reach estimator of `src/valhalla/loki/reach.h`.

The repository ships only the header: the class `Reach` (members `queue`,
`done`, `max_reach_`), the packed result `directed_reach` with two 16-bit
bitfields, and the declarations of `operator()`, `exact`, `ShouldExpand`,
`GetExpansionHints` and `Clear`.  The method bodies live in a translation
unit that is not part of the repository, so every body below is modelled
from the specification (sections 2-8 of the design document), while the
data layout of `directed_reach` and the member/constant names come from
the header itself.

Machine integers are modelled as `Nat`; the 16-bit bitfield stores of
`directed_reach` truncate modulo `2 ^ 16 = 65536` at the point where the
orchestrator assembles its result, exactly as a C++ bitfield assignment
does.
-/

/-- Direction mask bit for the inbound direction, `reach.h` line 8. -/
def kInbound : Nat := 1

/-- Direction mask bit for the outbound direction, `reach.h` line 9. -/
def kOutbound : Nat := 2

/-- Packed result from `reach.h` lines 37-40: `uint32_t outbound : 16` and
`uint32_t inbound : 16`.  Each field is a 16-bit bitfield, so every store
into a field keeps only the value modulo `65536`; the truncation is
performed where the fields are assigned (in `computeReach` below). -/
structure directed_reach where
  outbound : Nat
  inbound : Nat
deriving DecidableEq, Repr

/-- Opaque stand-in for `valhalla::baldr::DirectedEdge`, an external type
from the baldr library.  The reach code only receives a pointer to it;
the only observable aspect here is whether that pointer is null, which we
model with `Option DirectedEdge`. -/
structure DirectedEdge where
  endnode : Nat
deriving DecidableEq, Repr

/-- Modelled from the spec: the graph reader collaborator (section 6),
restricted to what the reach estimator consumes.  It resolves an edge
identity (was it found in the graph), yields forward and reverse
adjacency for the expansion, and resolves an edge's reverse/opposite
edge. -/
structure GraphReader where
  edges : List Nat
  succ : Nat → List Nat
  pred : Nat → List Nat
  opposing : Nat → Nat

/-- Modelled from the spec: the costing model collaborator (section 6).
It reports traversal permissibility, whether an edge is conditionally
restriction-skippable, and a traversal cost used for the priority
ordering of the generic engine. -/
structure DynamicCost where
  allowed : Nat → Bool
  skippable : Nat → Bool
  edgeCost : Nat → Nat

/-- Modelled from the spec: a frontier label of the generic engine
(section 6) carrying an edge identity, an accumulated cost and the
restriction-skippable flag; the reach code reads only these fields. -/
structure Label where
  edgeId : Nat
  cost : Nat
  skip : Bool
deriving DecidableEq, Repr

/-- The tri-state expansion recommendation of `thor::ExpansionRecommendation`
(spec section 3): continue, prune or stop. -/
inductive ExpansionRecommendation where
  | cont
  | prune
  | stop
deriving DecidableEq, Repr

/-- How one direction's expansion ended: the frontier emptied, the stop
recommendation fired, or the step budget ran out (the budget models the
engine's finite loop; on a well-formed finite graph a large enough budget
is never exhausted). -/
inductive ExpStatus where
  | exhausted
  | saturated
  | fuelOut
deriving DecidableEq, Repr

/-- The mutable instance state of class `Reach` from `reach.h` lines
88-89: the pending/enqueued set `queue`, the settled set `done`, and the
active threshold `max_reach_`. -/
structure Reach where
  queue : Finset Nat
  done : Finset Nat
  max_reach_ : Nat
deriving DecidableEq

/-- Modelled from the spec (section 4.5, body of `Reach::Clear` is not in
the repository): clears both the pending and the settled set to empty. -/
def Reach.Clear (r : Reach) : Reach :=
  { r with queue := ∅, done := ∅ }

/-- Modelled from the spec (section 4.3, body of `Reach::ShouldExpand` is
not in the repository).  Invoked once per popped frontier edge with the
edge's identity and its restriction-skippable flag.  Decision sequence:
already settled → prune; otherwise mark settled, and if the settled count
now equals the threshold → stop; in conservative mode a
restriction-skippable edge is pruned and the result is recorded as
provisional (the returned flag); otherwise continue.  This is the sole
mutator of the settled set. -/
def ShouldExpand (conservative : Bool) (edgeId : Nat) (skipFlag : Bool)
    (r : Reach) : ExpansionRecommendation × Reach × Bool :=
  if edgeId ∈ r.done then
    (.prune, r, false)
  else
    let r1 : Reach := { r with done := insert edgeId r.done }
    if r1.done.card = r.max_reach_ then
      (.stop, r1, false)
    else if conservative && skipFlag then
      (.prune, r1, true)
    else
      (.cont, r1, false)

/-- Modelled from the spec: the generic engine pops the lowest-cost
frontier label (section 6).  Returns the first label of minimal cost and
the remaining frontier. -/
def popMin : List Label → Option (Label × List Label)
  | [] => none
  | x :: xs =>
    match popMin xs with
    | none => some (x, [])
    | some (m, rest) =>
      if x.cost ≤ m.cost then some (x, xs) else some (m, x :: rest)

/-- Modelled from the spec: the generic engine enqueues the successors of
a continued edge, skipping edges the costing does not allow and edges
already pending (the pending-set dedupe of section 4.3); each enqueued
label carries the accumulated cost and the skippable flag. -/
def enqueue (costing : DynamicCost) (base : Nat) :
    List Nat → List Label → Reach → List Label × Reach
  | [], fr, r => (fr, r)
  | e :: es, fr, r =>
    if costing.allowed e = false then
      enqueue costing base es fr r
    else if e ∈ r.queue then
      enqueue costing base es fr r
    else
      enqueue costing base es (fr ++ [⟨e, base + costing.edgeCost e, costing.skippable e⟩])
        { r with queue := insert e r.queue }

/-- Adjacency used by a direction's expansion: successor edges for the
outbound direction, predecessor edges for the inbound direction. -/
def adjacency (reader : GraphReader) (outb : Bool) : Nat → List Nat :=
  if outb then reader.succ else reader.pred

/-- Modelled from the spec: the blocking loop of the generic engine
(sections 2, 5, 6).  It repeatedly pops the lowest-cost frontier label,
asks `ShouldExpand`, and on continue enqueues the popped edge's
successors; prune skips the successors; stop halts the whole expansion.
The accumulated `prov` flag records whether any restriction-skippable
edge was pruned (section 4.3 step 3). -/
def expandLoop (reader : GraphReader) (costing : DynamicCost) (outb : Bool)
    (conservative : Bool) :
    Nat → List Label → Reach → Bool → Reach × Bool × ExpStatus
  | 0, _, r, prov => (r, prov, .fuelOut)
  | Nat.succ fuel, frontier, r, prov =>
    match popMin frontier with
    | none => (r, prov, .exhausted)
    | some (x, rest) =>
      match ShouldExpand conservative x.edgeId x.skip r with
      | (.stop, r', p) => (r', prov || p, .saturated)
      | (.prune, r', p) =>
        expandLoop reader costing outb conservative fuel rest r' (prov || p)
      | (.cont, r', p) =>
        let pushed := enqueue costing x.cost (adjacency reader outb x.edgeId) rest r'
        expandLoop reader costing outb conservative fuel pushed.1 pushed.2 (prov || p)

/-- Modelled from the spec: one direction's expansion (sections 2 and
4.1).  The reset hook `Reach.Clear` runs first, the seed edge is
enqueued, then the engine loop runs.  Returns the final instance state,
the provisional flag and the termination status. -/
def Expand (reader : GraphReader) (costing : DynamicCost) (outb : Bool)
    (conservative : Bool) (fuel : Nat) (seed : Nat) (r : Reach) :
    Reach × Bool × ExpStatus :=
  let r0 := Reach.Clear r
  expandLoop reader costing outb conservative fuel
    [⟨seed, costing.edgeCost seed, costing.skippable seed⟩]
    { r0 with queue := insert seed r0.queue } false

/-- Modelled from the spec (section 4.1): one direction of the
orchestrator.  Runs the conservative expansion; if it ended below the
threshold and pruned at least one restriction-skippable edge, reruns the
direction in exact mode and the exact count replaces the conservative
one.  The tracker is cleared before every expansion (inside `Expand`)
and again after the direction's count is read, so the visitation state
is empty at the start and at the end of the direction's expansion. -/
def directionReach (reader : GraphReader) (costing : DynamicCost) (outb : Bool)
    (fuel : Nat) (seed : Nat) (r : Reach) : Nat × Reach :=
  let e1 := Expand reader costing outb true fuel seed r
  if e1.2.1 = true ∧ e1.1.done.card < e1.1.max_reach_ then
    let e2 := Expand reader costing outb false fuel seed e1.1
    (e2.1.done.card, Reach.Clear e2.1)
  else
    (e1.1.done.card, Reach.Clear e1.1)

/-- Modelled from the spec (sections 4.1, 6, 7; body of
`Reach::operator()` is not in the repository): the public entry point
`computeReach(edge, edge_id, max_reach, reader, costing, direction)`.
Invalid inputs (null edge pointer, unresolvable edge id, non-positive
threshold) fail fast: no normal `directed_reach` result is produced for
them.  Otherwise the threshold member is set, the requested directions
are expanded (outbound seeded at the edge itself, inbound seeded at the
edge's opposite), and the two counts are stored into the 16-bit
bitfields of `directed_reach` (truncating modulo 65536 as a C++
bitfield store does). -/
def computeReach (edge : Option DirectedEdge) (edge_id : Nat) (max_reach : Nat)
    (reader : GraphReader) (costing : DynamicCost) (direction : Nat)
    (fuel : Nat) (r : Reach) : Option (directed_reach × Reach) :=
  if edge = none ∨ edge_id ∉ reader.edges ∨ max_reach = 0 then
    none
  else
    let r0 : Reach := { r with max_reach_ := max_reach }
    let o :=
      if Nat.land direction kOutbound ≠ 0 then
        directionReach reader costing true fuel edge_id r0
      else (0, r0)
    let i :=
      if Nat.land direction kInbound ≠ 0 then
        directionReach reader costing false fuel (reader.opposing edge_id) o.2
      else (0, o.2)
    some (⟨o.1 % 65536, i.1 % 65536⟩, i.2)

/-- Modelled from the spec (section 4.2; body of `Reach::exact` is not in
the repository): same contract as the orchestrator, but the expansion
never prunes an edge solely because it is restriction-skippable, and it
never recurses into a further fallback. -/
def Reach.exact (edge : Option DirectedEdge) (edge_id : Nat) (max_reach : Nat)
    (reader : GraphReader) (costing : DynamicCost) (direction : Nat)
    (fuel : Nat) (r : Reach) : Option (directed_reach × Reach) :=
  if edge = none ∨ edge_id ∉ reader.edges ∨ max_reach = 0 then
    none
  else
    let r0 : Reach := { r with max_reach_ := max_reach }
    let o :=
      if Nat.land direction kOutbound ≠ 0 then
        let e := Expand reader costing true false fuel edge_id r0
        (e.1.done.card, Reach.Clear e.1)
      else (0, r0)
    let i :=
      if Nat.land direction kInbound ≠ 0 then
        let e := Expand reader costing false false fuel (reader.opposing edge_id) o.2
        (e.1.done.card, Reach.Clear e.1)
      else (0, o.2)
    some (⟨o.1 % 65536, i.1 % 65536⟩, i.2)

/-- Edges reachable from the seed by the mode's expansion policy: the
seed is reachable, and from a reachable edge that the mode may expand
(`ok`), every allowed adjacent edge is reachable. -/
inductive ReachableFrom (adj : Nat → List Nat) (allowed : Nat → Bool)
    (ok : Nat → Bool) (seed : Nat) : Nat → Prop
  | seed : ReachableFrom adj allowed ok seed seed
  | step {a b : Nat} : ReachableFrom adj allowed ok seed a → ok a = true →
      b ∈ adj a → allowed b = true → ReachableFrom adj allowed ok seed b

/-- Whether a mode may expand a settled edge: in conservative mode a
restriction-skippable edge is not expanded, in exact mode every settled
edge is. -/
def expandOk (costing : DynamicCost) (conservative : Bool) (e : Nat) : Bool :=
  !(conservative && costing.skippable e)

/-! Concrete fixtures used by the witness theorems below. -/

/-- Five-edge example graph: outbound chain 0 → 1 → 2 through `succ` and
inbound chain 0 → 3 → 4 through `pred`; every edge is its own opposite. -/
def chainReader : GraphReader :=
  { edges := [0, 1, 2, 3, 4]
    succ := fun n => if n = 0 then [1] else if n = 1 then [2] else []
    pred := fun n => if n = 0 then [3] else if n = 3 then [4] else []
    opposing := fun n => n }

/-- Costing that allows every edge, marks none restriction-skippable and
charges unit cost. -/
def freeCost : DynamicCost :=
  { allowed := fun _ => true, skippable := fun _ => false, edgeCost := fun _ => 1 }

/-- Costing that allows every edge and marks edge 1 conditionally
restriction-skippable, so a conservative outbound pass from edge 0 prunes
at edge 1. -/
def skipCost : DynamicCost :=
  { allowed := fun _ => true, skippable := fun n => n == 1, edgeCost := fun _ => 1 }

/-- Unbounded forward chain: every edge n has the single successor n + 1.
Its true outbound reach exceeds any threshold, which exercises the 16-bit
wrap of the packed result fields. -/
def chainToInfinity : GraphReader :=
  { edges := [0]
    succ := fun n => [n + 1]
    pred := fun _ => []
    opposing := fun n => n }

/-! Basic facts about the engine's pop operation. -/

theorem popMin_none_iff (l : List Label) : popMin l = none ↔ l = [] := by
  cases l with
  | nil => simp [popMin]
  | cons x xs =>
    simp only [popMin]
    cases h : popMin xs with
    | none => simp
    | some p => cases p with | mk m rest => by_cases hc : x.cost ≤ m.cost <;> simp [hc]

theorem popMin_perm {l rest : List Label} {x : Label}
    (h : popMin l = some (x, rest)) : l.Perm (x :: rest) := by
  induction l generalizing x rest with
  | nil => simp [popMin] at h
  | cons a as ih =>
    cases hm : popMin as with
    | none =>
      have has : as = [] := (popMin_none_iff as).1 hm
      subst has
      simp only [popMin, Option.some.injEq, Prod.mk.injEq] at h
      obtain ⟨h1, h2⟩ := h
      subst h1; subst h2
      exact List.Perm.refl _
    | some p =>
      obtain ⟨m, r0⟩ := p
      simp only [popMin, hm] at h
      by_cases hc : a.cost ≤ m.cost
      · rw [if_pos hc] at h
        simp only [Option.some.injEq, Prod.mk.injEq] at h
        obtain ⟨h1, h2⟩ := h
        subst h1; subst h2
        exact List.Perm.refl _
      · rw [if_neg hc] at h
        simp only [Option.some.injEq, Prod.mk.injEq] at h
        obtain ⟨h1, h2⟩ := h
        subst h1; subst h2
        exact (List.Perm.cons a (ih hm)).trans (List.Perm.swap m a r0)

theorem popMin_mem {l rest : List Label} {x : Label}
    (h : popMin l = some (x, rest)) : x ∈ l :=
  (popMin_perm h).mem_iff.2 (List.mem_cons_self x rest)

theorem popMin_rest_mem {l rest : List Label} {x : Label}
    (h : popMin l = some (x, rest)) {y : Label} (hy : y ∈ rest) : y ∈ l :=
  (popMin_perm h).mem_iff.2 (List.mem_cons_of_mem x hy)

/-! Case equations for the decision callback. -/

theorem ShouldExpand_settled {e : Nat} {r : Reach} (c s : Bool) (h : e ∈ r.done) :
    ShouldExpand c e s r = (.prune, r, false) := by
  simp [ShouldExpand, h]

theorem ShouldExpand_stop {e : Nat} {r : Reach} (c s : Bool) (h1 : e ∉ r.done)
    (h2 : (insert e r.done).card = r.max_reach_) :
    ShouldExpand c e s r = (.stop, { r with done := insert e r.done }, false) := by
  simp [ShouldExpand, h1, h2]

theorem ShouldExpand_skip {e : Nat} {r : Reach} {c s : Bool} (h1 : e ∉ r.done)
    (h2 : (insert e r.done).card ≠ r.max_reach_) (h3 : (c && s) = true) :
    ShouldExpand c e s r = (.prune, { r with done := insert e r.done }, true) := by
  rw [Finset.card_insert_of_not_mem h1] at h2
  simp [ShouldExpand, h1, h2, h3]

theorem ShouldExpand_cont {e : Nat} {r : Reach} {c s : Bool} (h1 : e ∉ r.done)
    (h2 : (insert e r.done).card ≠ r.max_reach_) (h3 : (c && s) = false) :
    ShouldExpand c e s r = (.cont, { r with done := insert e r.done }, false) := by
  rw [Finset.card_insert_of_not_mem h1] at h2
  simp [ShouldExpand, h1, h2, h3]

/-! State preservation through the enqueue helper. -/

theorem enqueue_done (costing : DynamicCost) (base : Nat) (es : List Nat)
    (fr : List Label) (r : Reach) :
    (enqueue costing base es fr r).2.done = r.done := by
  induction es generalizing fr r with
  | nil => rfl
  | cons e es ih =>
    simp only [enqueue]
    by_cases h1 : costing.allowed e = false
    · rw [if_pos h1]; exact ih fr r
    · rw [if_neg h1]
      by_cases h2 : e ∈ r.queue
      · rw [if_pos h2]; exact ih fr r
      · rw [if_neg h2]; exact ih _ _

theorem enqueue_max (costing : DynamicCost) (base : Nat) (es : List Nat)
    (fr : List Label) (r : Reach) :
    (enqueue costing base es fr r).2.max_reach_ = r.max_reach_ := by
  induction es generalizing fr r with
  | nil => rfl
  | cons e es ih =>
    simp only [enqueue]
    by_cases h1 : costing.allowed e = false
    · rw [if_pos h1]; exact ih fr r
    · rw [if_neg h1]
      by_cases h2 : e ∈ r.queue
      · rw [if_pos h2]; exact ih fr r
      · rw [if_neg h2]; exact ih _ _

theorem enqueue_queue_subset (costing : DynamicCost) (base : Nat) (es : List Nat)
    (fr : List Label) (r : Reach) :
    r.queue ⊆ (enqueue costing base es fr r).2.queue := by
  induction es generalizing fr r with
  | nil => exact Finset.Subset.refl _
  | cons e es ih =>
    simp only [enqueue]
    by_cases h1 : costing.allowed e = false
    · rw [if_pos h1]; exact ih fr r
    · rw [if_neg h1]
      by_cases h2 : e ∈ r.queue
      · rw [if_pos h2]; exact ih fr r
      · rw [if_neg h2]
        exact (Finset.subset_insert e r.queue).trans
          (ih (fr ++ [⟨e, base + costing.edgeCost e, costing.skippable e⟩])
            { r with queue := insert e r.queue })

theorem enqueue_frontier_mem (costing : DynamicCost) (base : Nat) (es : List Nat)
    (fr : List Label) (r : Reach) {l : Label} (hl : l ∈ fr) :
    l ∈ (enqueue costing base es fr r).1 := by
  induction es generalizing fr r with
  | nil => exact hl
  | cons e es ih =>
    simp only [enqueue]
    by_cases h1 : costing.allowed e = false
    · rw [if_pos h1]; exact ih _ _ hl
    · rw [if_neg h1]
      by_cases h2 : e ∈ r.queue
      · rw [if_pos h2]; exact ih _ _ hl
      · rw [if_neg h2]
        exact ih _ _ (List.mem_append_left _ hl)

/-! Preservation facts for the expansion loop. -/

theorem expandLoop_max (rd : GraphReader) (co : DynamicCost) (ob cv : Bool) :
    ∀ (fuel : Nat) (fr : List Label) (r : Reach) (prov : Bool),
    (expandLoop rd co ob cv fuel fr r prov).1.max_reach_ = r.max_reach_ := by
  intro fuel
  induction fuel with
  | zero => intro fr r prov; rfl
  | succ fuel ih =>
    intro fr r prov
    cases hpop : popMin fr with
    | none => simp [expandLoop, hpop]
    | some pr =>
      obtain ⟨x, rest⟩ := pr
      by_cases hd : x.edgeId ∈ r.done
      · simp only [expandLoop, hpop, ShouldExpand_settled cv x.skip hd]
        exact ih rest r (prov || false)
      · by_cases hc : (insert x.edgeId r.done).card = r.max_reach_
        · simp [expandLoop, hpop, ShouldExpand_stop cv x.skip hd hc]
        · by_cases hs : (cv && x.skip) = true
          · simp only [expandLoop, hpop, ShouldExpand_skip hd hc hs]
            exact ih rest _ _
          · simp only [expandLoop, hpop,
              ShouldExpand_cont hd hc (Bool.not_eq_true _ ▸ hs)]
            rw [ih _ _ _]
            exact enqueue_max co x.cost _ rest _

theorem expandLoop_done_subset (rd : GraphReader) (co : DynamicCost) (ob cv : Bool) :
    ∀ (fuel : Nat) (fr : List Label) (r : Reach) (prov : Bool),
    r.done ⊆ (expandLoop rd co ob cv fuel fr r prov).1.done := by
  intro fuel
  induction fuel with
  | zero => intro fr r prov; exact Finset.Subset.refl _
  | succ fuel ih =>
    intro fr r prov
    cases hpop : popMin fr with
    | none => simp [expandLoop, hpop]
    | some pr =>
      obtain ⟨x, rest⟩ := pr
      by_cases hd : x.edgeId ∈ r.done
      · simp only [expandLoop, hpop, ShouldExpand_settled cv x.skip hd]
        exact ih rest r (prov || false)
      · by_cases hc : (insert x.edgeId r.done).card = r.max_reach_
        · simp only [expandLoop, hpop, ShouldExpand_stop cv x.skip hd hc]
          exact Finset.subset_insert _ _
        · by_cases hs : (cv && x.skip) = true
          · simp only [expandLoop, hpop, ShouldExpand_skip hd hc hs]
            exact (Finset.subset_insert _ _).trans
              (ih rest { r with done := insert x.edgeId r.done } (prov || true))
          · simp only [expandLoop, hpop,
              ShouldExpand_cont hd hc (Bool.not_eq_true _ ▸ hs)]
            have hq := ih (enqueue co x.cost (adjacency rd ob x.edgeId) rest
              { r with done := insert x.edgeId r.done }).1
              (enqueue co x.cost (adjacency rd ob x.edgeId) rest
              { r with done := insert x.edgeId r.done }).2 (prov || false)
            rw [enqueue_done] at hq
            exact (Finset.subset_insert _ _).trans hq

theorem expandLoop_card_le_fuel (rd : GraphReader) (co : DynamicCost) (ob cv : Bool) :
    ∀ (fuel : Nat) (fr : List Label) (r : Reach) (prov : Bool),
    (expandLoop rd co ob cv fuel fr r prov).1.done.card ≤ r.done.card + fuel := by
  intro fuel
  induction fuel with
  | zero => intro fr r prov; exact Nat.le_refl _
  | succ fuel ih =>
    intro fr r prov
    cases hpop : popMin fr with
    | none => simp [expandLoop, hpop]
    | some pr =>
      obtain ⟨x, rest⟩ := pr
      by_cases hd : x.edgeId ∈ r.done
      · simp only [expandLoop, hpop, ShouldExpand_settled cv x.skip hd]
        exact (ih rest r (prov || false)).trans (by omega)
      · by_cases hc : (insert x.edgeId r.done).card = r.max_reach_
        · simp only [expandLoop, hpop, ShouldExpand_stop cv x.skip hd hc]
          have := Finset.card_insert_le x.edgeId r.done
          omega
        · by_cases hs : (cv && x.skip) = true
          · simp only [expandLoop, hpop, ShouldExpand_skip hd hc hs]
            have h1 := ih rest { r with done := insert x.edgeId r.done } (prov || true)
            have h2 := Finset.card_insert_le x.edgeId r.done
            simp only at h1
            omega
          · simp only [expandLoop, hpop,
              ShouldExpand_cont hd hc (Bool.not_eq_true _ ▸ hs)]
            have h1 := ih (enqueue co x.cost (adjacency rd ob x.edgeId) rest
              { r with done := insert x.edgeId r.done }).1
              (enqueue co x.cost (adjacency rd ob x.edgeId) rest
              { r with done := insert x.edgeId r.done }).2 (prov || false)
            rw [enqueue_done] at h1
            have h2 := Finset.card_insert_le x.edgeId r.done
            simp only at h1
            omega

theorem expandLoop_card_le_max (rd : GraphReader) (co : DynamicCost) (ob cv : Bool) :
    ∀ (fuel : Nat) (fr : List Label) (r : Reach) (prov : Bool),
    r.done.card < r.max_reach_ →
    (expandLoop rd co ob cv fuel fr r prov).1.done.card ≤ r.max_reach_ := by
  intro fuel
  induction fuel with
  | zero => intro fr r prov h; exact Nat.le_of_lt h
  | succ fuel ih =>
    intro fr r prov h
    cases hpop : popMin fr with
    | none => simpa [expandLoop, hpop] using Nat.le_of_lt h
    | some pr =>
      obtain ⟨x, rest⟩ := pr
      by_cases hd : x.edgeId ∈ r.done
      · simp only [expandLoop, hpop, ShouldExpand_settled cv x.skip hd]
        exact ih rest r (prov || false) h
      · have hcard : (insert x.edgeId r.done).card = r.done.card + 1 :=
          Finset.card_insert_of_not_mem hd
        by_cases hc : (insert x.edgeId r.done).card = r.max_reach_
        · simp only [expandLoop, hpop, ShouldExpand_stop cv x.skip hd hc]
          exact Nat.le_of_eq hc
        · have hlt : (insert x.edgeId r.done).card < r.max_reach_ := by omega
          by_cases hs : (cv && x.skip) = true
          · simp only [expandLoop, hpop, ShouldExpand_skip hd hc hs]
            exact ih rest { r with done := insert x.edgeId r.done } (prov || true) hlt
          · simp only [expandLoop, hpop,
              ShouldExpand_cont hd hc (Bool.not_eq_true _ ▸ hs)]
            have h1 := ih (enqueue co x.cost (adjacency rd ob x.edgeId) rest
              { r with done := insert x.edgeId r.done }).1
              (enqueue co x.cost (adjacency rd ob x.edgeId) rest
              { r with done := insert x.edgeId r.done }).2 (prov || false)
              (by rw [enqueue_done, enqueue_max]; exact hlt)
            rw [enqueue_max] at h1
            exact h1

theorem expandLoop_saturated_card (rd : GraphReader) (co : DynamicCost) (ob cv : Bool) :
    ∀ (fuel : Nat) (fr : List Label) (r : Reach) (prov : Bool),
    (expandLoop rd co ob cv fuel fr r prov).2.2 = .saturated →
    (expandLoop rd co ob cv fuel fr r prov).1.done.card = r.max_reach_ := by
  intro fuel
  induction fuel with
  | zero => intro fr r prov h; simp [expandLoop] at h
  | succ fuel ih =>
    intro fr r prov h
    cases hpop : popMin fr with
    | none => rw [expandLoop] at h; rw [hpop] at h; simp at h
    | some pr =>
      obtain ⟨x, rest⟩ := pr
      by_cases hd : x.edgeId ∈ r.done
      · simp only [expandLoop, hpop, ShouldExpand_settled cv x.skip hd] at h ⊢
        exact ih rest r (prov || false) h
      · by_cases hc : (insert x.edgeId r.done).card = r.max_reach_
        · simp only [expandLoop, hpop, ShouldExpand_stop cv x.skip hd hc]
          exact hc
        · by_cases hs : (cv && x.skip) = true
          · simp only [expandLoop, hpop, ShouldExpand_skip hd hc hs] at h ⊢
            exact ih rest _ _ h
          · simp only [expandLoop, hpop,
              ShouldExpand_cont hd hc (Bool.not_eq_true _ ▸ hs)] at h ⊢
            rw [ih _ _ _ h, enqueue_max]

/-! Engine invariants tying the frontier, the pending set and the settled
set together, and their preservation through the enqueue helper. -/

/-- Frontier/pending freshness: frontier edge ids are distinct, every
settled edge and every frontier edge is pending, and no frontier edge is
already settled.  Under this invariant every popped label settles a new
edge, so each loop iteration counts exactly one edge. -/
def FreshInv (fr : List Label) (r : Reach) : Prop :=
  (fr.map Label.edgeId).Nodup ∧ r.done ⊆ r.queue ∧
    (∀ l ∈ fr, l.edgeId ∈ r.queue) ∧ ∀ l ∈ fr, l.edgeId ∉ r.done

/-- Every frontier label carries the restriction-skippable flag the
costing model assigns to its edge. -/
def FlagInv (co : DynamicCost) (fr : List Label) : Prop :=
  ∀ l ∈ fr, l.skip = co.skippable l.edgeId

/-- Soundness invariant: every settled edge and every frontier edge is
reachable from the seed under the mode's expansion policy. -/
def SoundInv (rd : GraphReader) (co : DynamicCost) (ob cv : Bool) (seed : Nat)
    (fr : List Label) (r : Reach) : Prop :=
  (∀ a ∈ r.done, ReachableFrom (adjacency rd ob) co.allowed (expandOk co cv) seed a) ∧
    ∀ l ∈ fr, ReachableFrom (adjacency rd ob) co.allowed (expandOk co cv) seed l.edgeId

/-- Completeness invariant: the allowed neighbours of every settled edge
the mode may expand are already pending, every pending edge is settled or
still on the frontier, and the seed is pending.  When the frontier
empties this forces the settled set to contain the whole mode-reachable
set. -/
def CompInv (rd : GraphReader) (co : DynamicCost) (ob cv : Bool) (seed : Nat)
    (fr : List Label) (r : Reach) : Prop :=
  (∀ a ∈ r.done, expandOk co cv a = true →
      ∀ b ∈ adjacency rd ob a, co.allowed b = true → b ∈ r.queue) ∧
    (∀ q ∈ r.queue, q ∈ r.done ∨ ∃ l ∈ fr, l.edgeId = q) ∧
    seed ∈ r.queue

theorem popMin_mem_split {l rest : List Label} {x : Label}
    (h : popMin l = some (x, rest)) {y : Label} (hy : y ∈ l) :
    y = x ∨ y ∈ rest :=
  List.mem_cons.1 ((popMin_perm h).mem_iff.1 hy)

theorem enqueue_FreshInv (co : DynamicCost) (base : Nat) :
    ∀ (es : List Nat) (fr : List Label) (r : Reach), FreshInv fr r →
    FreshInv (enqueue co base es fr r).1 (enqueue co base es fr r).2 := by
  intro es
  induction es with
  | nil => intro fr r h; exact h
  | cons e es ih =>
    intro fr r h
    obtain ⟨hnd, hdq, hfq, hfd⟩ := h
    simp only [enqueue]
    by_cases h1 : co.allowed e = false
    · rw [if_pos h1]; exact ih fr r ⟨hnd, hdq, hfq, hfd⟩
    · rw [if_neg h1]
      by_cases h2 : e ∈ r.queue
      · rw [if_pos h2]; exact ih fr r ⟨hnd, hdq, hfq, hfd⟩
      · rw [if_neg h2]
        refine ih _ _ ?_
        refine ⟨?_, ?_, ?_, ?_⟩
        · rw [List.map_append]
          rw [List.nodup_append]
          refine ⟨hnd, List.nodup_singleton _, ?_⟩
          intro a ha hb
          simp only [List.map_cons, List.map_nil, List.mem_singleton] at hb
          subst hb
          obtain ⟨l, hl, hle⟩ := List.mem_map.1 ha
          exact h2 (hle ▸ hfq l hl)
        · exact hdq.trans (Finset.subset_insert _ _)
        · intro l hl
          rcases List.mem_append.1 hl with hl | hl
          · exact Finset.mem_insert_of_mem (hfq l hl)
          · simp only [List.mem_singleton] at hl
            subst hl
            exact Finset.mem_insert_self _ _
        · intro l hl
          rcases List.mem_append.1 hl with hl | hl
          · exact hfd l hl
          · simp only [List.mem_singleton] at hl
            subst hl
            intro hmem
            exact h2 (hdq hmem)

theorem enqueue_FlagInv (co : DynamicCost) (base : Nat) :
    ∀ (es : List Nat) (fr : List Label) (r : Reach), FlagInv co fr →
    FlagInv co (enqueue co base es fr r).1 := by
  intro es
  induction es with
  | nil => intro fr r h; exact h
  | cons e es ih =>
    intro fr r h
    simp only [enqueue]
    by_cases h1 : co.allowed e = false
    · rw [if_pos h1]; exact ih fr r h
    · rw [if_neg h1]
      by_cases h2 : e ∈ r.queue
      · rw [if_pos h2]; exact ih fr r h
      · rw [if_neg h2]
        refine ih _ _ ?_
        intro l hl
        rcases List.mem_append.1 hl with hl | hl
        · exact h l hl
        · simp only [List.mem_singleton] at hl
          subst hl
          rfl

theorem enqueue_frontier_sound (co : DynamicCost) (base : Nat) (Q : Nat → Prop) :
    ∀ (es : List Nat) (fr : List Label) (r : Reach),
    (∀ l ∈ fr, Q l.edgeId) → (∀ e ∈ es, co.allowed e = true → Q e) →
    ∀ l ∈ (enqueue co base es fr r).1, Q l.edgeId := by
  intro es
  induction es with
  | nil => intro fr r hfr _ l hl; exact hfr l hl
  | cons e es ih =>
    intro fr r hfr hes
    simp only [enqueue]
    by_cases h1 : co.allowed e = false
    · rw [if_pos h1]
      exact ih fr r hfr fun e' he' => hes e' (List.mem_cons_of_mem _ he')
    · rw [if_neg h1]
      by_cases h2 : e ∈ r.queue
      · rw [if_pos h2]
        exact ih fr r hfr fun e' he' => hes e' (List.mem_cons_of_mem _ he')
      · rw [if_neg h2]
        refine ih _ _ ?_ fun e' he' => hes e' (List.mem_cons_of_mem _ he')
        intro l hl
        rcases List.mem_append.1 hl with hl | hl
        · exact hfr l hl
        · simp only [List.mem_singleton] at hl
          subst hl
          exact hes e (List.mem_cons_self _ _) (Bool.not_eq_false _ ▸ h1)

theorem enqueue_mem_queue (co : DynamicCost) (base : Nat) :
    ∀ (es : List Nat) (fr : List Label) (r : Reach),
    ∀ e ∈ es, co.allowed e = true → e ∈ (enqueue co base es fr r).2.queue := by
  intro es
  induction es with
  | nil => intro fr r e he; exact absurd he (List.not_mem_nil e)
  | cons e0 es ih =>
    intro fr r e he hall
    rcases List.mem_cons.1 he with he | he
    · subst he
      simp only [enqueue]
      rw [if_neg (by simp [hall])]
      by_cases h2 : e ∈ r.queue
      · rw [if_pos h2]
        exact enqueue_queue_subset co base es fr r h2
      · rw [if_neg h2]
        exact enqueue_queue_subset co base es _ _ (Finset.mem_insert_self _ _)
    · simp only [enqueue]
      by_cases h1 : co.allowed e0 = false
      · rw [if_pos h1]; exact ih fr r e he hall
      · rw [if_neg h1]
        by_cases h2 : e0 ∈ r.queue
        · rw [if_pos h2]; exact ih fr r e he hall
        · rw [if_neg h2]; exact ih _ _ e he hall

theorem enqueue_queue_covered (co : DynamicCost) (base : Nat) :
    ∀ (es : List Nat) (fr : List Label) (r : Reach),
    ∀ q ∈ (enqueue co base es fr r).2.queue,
      q ∈ r.queue ∨ ∃ l ∈ (enqueue co base es fr r).1, l.edgeId = q := by
  intro es
  induction es with
  | nil => intro fr r q hq; exact Or.inl hq
  | cons e es ih =>
    intro fr r q hq
    simp only [enqueue] at hq ⊢
    by_cases h1 : co.allowed e = false
    · rw [if_pos h1] at hq ⊢; exact ih fr r q hq
    · rw [if_neg h1] at hq ⊢
      by_cases h2 : e ∈ r.queue
      · rw [if_pos h2] at hq ⊢; exact ih fr r q hq
      · rw [if_neg h2] at hq ⊢
        rcases ih _ _ q hq with hc | hc
        · rcases Finset.mem_insert.1 hc with hc | hc
          · subst hc
            refine Or.inr ⟨⟨q, base + co.edgeCost q, co.skippable q⟩, ?_, rfl⟩
            exact enqueue_frontier_mem co base es _ _
              (List.mem_append_right _ (List.mem_singleton_self _))
          · exact Or.inl hc
        · exact Or.inr hc

theorem enqueue_congr (co : DynamicCost) (base : Nat) :
    ∀ (es : List Nat) (fr : List Label) (r1 r2 : Reach), r1.queue = r2.queue →
    (enqueue co base es fr r1).1 = (enqueue co base es fr r2).1 ∧
      (enqueue co base es fr r1).2.queue = (enqueue co base es fr r2).2.queue := by
  intro es
  induction es with
  | nil => intro fr r1 r2 h; exact ⟨rfl, h⟩
  | cons e es ih =>
    intro fr r1 r2 h
    simp only [enqueue]
    by_cases h1 : co.allowed e = false
    · rw [if_pos h1, if_pos h1]; exact ih fr r1 r2 h
    · rw [if_neg h1, if_neg h1]
      by_cases h2 : e ∈ r1.queue
      · rw [if_pos h2, if_pos (h ▸ h2)]; exact ih fr r1 r2 h
      · rw [if_neg h2, if_neg (h ▸ h2)]
        exact ih _ _ _ (by simp [h])

theorem FreshInv_settle {fr rest : List Label} {x : Label} {r : Reach}
    (hinv : FreshInv fr r) (hpop : popMin fr = some (x, rest)) :
    FreshInv rest { r with done := insert x.edgeId r.done } := by
  obtain ⟨hnd, hdq, hfq, hfd⟩ := hinv
  have hperm : (fr.map Label.edgeId).Perm (x.edgeId :: rest.map Label.edgeId) := by
    simpa using (popMin_perm hpop).map Label.edgeId
  have hnd2 : (x.edgeId :: rest.map Label.edgeId).Nodup := hperm.nodup_iff.1 hnd
  refine ⟨(List.nodup_cons.1 hnd2).2, ?_, ?_, ?_⟩
  · exact Finset.insert_subset_iff.2 ⟨hfq x (popMin_mem hpop), hdq⟩
  · intro l hl
    exact hfq l (popMin_rest_mem hpop hl)
  · intro l hl hmem
    rcases Finset.mem_insert.1 hmem with h | h
    · have hmap : l.edgeId ∈ rest.map Label.edgeId := List.mem_map_of_mem _ hl
      rw [h] at hmap
      exact (List.nodup_cons.1 hnd2).1 hmap
    · exact hfd l (popMin_rest_mem hpop hl) h

theorem expandLoop_fuelOut_card (rd : GraphReader) (co : DynamicCost) (ob cv : Bool) :
    ∀ (fuel : Nat) (fr : List Label) (r : Reach) (prov : Bool), FreshInv fr r →
    (expandLoop rd co ob cv fuel fr r prov).2.2 = .fuelOut →
    (expandLoop rd co ob cv fuel fr r prov).1.done.card = r.done.card + fuel := by
  intro fuel
  induction fuel with
  | zero => intro fr r prov _ _; rfl
  | succ fuel ih =>
    intro fr r prov hinv hst
    cases hpop : popMin fr with
    | none =>
      rw [expandLoop] at hst
      rw [hpop] at hst
      simp at hst
    | some pr =>
      obtain ⟨x, rest⟩ := pr
      have hd : x.edgeId ∉ r.done := hinv.2.2.2 x (popMin_mem hpop)
      have hcard : (insert x.edgeId r.done).card = r.done.card + 1 :=
        Finset.card_insert_of_not_mem hd
      by_cases hc : (insert x.edgeId r.done).card = r.max_reach_
      · simp only [expandLoop, hpop, ShouldExpand_stop cv x.skip hd hc] at hst
        simp at hst
      · have hinv' := FreshInv_settle hinv hpop
        by_cases hs : (cv && x.skip) = true
        · simp only [expandLoop, hpop, ShouldExpand_skip hd hc hs] at hst ⊢
          rw [ih rest _ _ hinv' hst]
          simp only
          omega
        · simp only [expandLoop, hpop,
            ShouldExpand_cont hd hc (Bool.not_eq_true _ ▸ hs)] at hst ⊢
          rw [ih _ _ _ (enqueue_FreshInv co x.cost _ rest _ hinv') hst, enqueue_done]
          simp only
          omega

theorem expandLoop_sound (rd : GraphReader) (co : DynamicCost) (ob cv : Bool)
    (seed : Nat) :
    ∀ (fuel : Nat) (fr : List Label) (r : Reach) (prov : Bool), FlagInv co fr →
    SoundInv rd co ob cv seed fr r →
    ∀ a ∈ (expandLoop rd co ob cv fuel fr r prov).1.done,
      ReachableFrom (adjacency rd ob) co.allowed (expandOk co cv) seed a := by
  intro fuel
  induction fuel with
  | zero => intro fr r prov _ hsound a ha; exact hsound.1 a ha
  | succ fuel ih =>
    intro fr r prov hflag hsound
    cases hpop : popMin fr with
    | none =>
      simp only [expandLoop, hpop]
      exact hsound.1
    | some pr =>
      obtain ⟨x, rest⟩ := pr
      have hflag' : FlagInv co rest := fun l hl => hflag l (popMin_rest_mem hpop hl)
      have hrest : ∀ l ∈ rest,
          ReachableFrom (adjacency rd ob) co.allowed (expandOk co cv) seed l.edgeId :=
        fun l hl => hsound.2 l (popMin_rest_mem hpop hl)
      have hxr : ReachableFrom (adjacency rd ob) co.allowed (expandOk co cv) seed
          x.edgeId := hsound.2 x (popMin_mem hpop)
      have hins : ∀ a ∈ insert x.edgeId r.done,
          ReachableFrom (adjacency rd ob) co.allowed (expandOk co cv) seed a := by
        intro a ha
        rcases Finset.mem_insert.1 ha with h | h
        · rw [h]; exact hxr
        · exact hsound.1 a h
      by_cases hd : x.edgeId ∈ r.done
      · simp only [expandLoop, hpop, ShouldExpand_settled cv x.skip hd]
        exact ih rest r (prov || false) hflag' ⟨hsound.1, hrest⟩
      · by_cases hc : (insert x.edgeId r.done).card = r.max_reach_
        · simp only [expandLoop, hpop, ShouldExpand_stop cv x.skip hd hc]
          exact hins
        · by_cases hs : (cv && x.skip) = true
          · simp only [expandLoop, hpop, ShouldExpand_skip hd hc hs]
            exact ih rest _ _ hflag' ⟨hins, hrest⟩
          · have hok : expandOk co cv x.edgeId = true := by
              have hfx := hflag x (popMin_mem hpop)
              simp only [expandOk, ← hfx]
              simp [hs]
            simp only [expandLoop, hpop,
              ShouldExpand_cont hd hc (Bool.not_eq_true _ ▸ hs)]
            refine ih _ _ _ (enqueue_FlagInv co x.cost _ rest _ hflag') ⟨?_, ?_⟩
            · rw [enqueue_done]
              exact hins
            · exact enqueue_frontier_sound co x.cost _ _ rest _ hrest
                (fun e he hall => ReachableFrom.step hxr hok he hall)

theorem expandLoop_complete (rd : GraphReader) (co : DynamicCost) (ob cv : Bool)
    (seed : Nat) :
    ∀ (fuel : Nat) (fr : List Label) (r : Reach) (prov : Bool), FlagInv co fr →
    CompInv rd co ob cv seed fr r →
    (expandLoop rd co ob cv fuel fr r prov).2.2 = .exhausted →
    ∀ y, ReachableFrom (adjacency rd ob) co.allowed (expandOk co cv) seed y →
      y ∈ (expandLoop rd co ob cv fuel fr r prov).1.done := by
  intro fuel
  induction fuel with
  | zero => intro fr r prov _ _ hst; simp [expandLoop] at hst
  | succ fuel ih =>
    intro fr r prov hflag hcomp hst
    cases hpop : popMin fr with
    | none =>
      have hfre : fr = [] := (popMin_none_iff fr).1 hpop
      simp only [expandLoop, hpop]
      have hq : ∀ q ∈ r.queue, q ∈ r.done := by
        intro q hqm
        rcases hcomp.2.1 q hqm with h | h
        · exact h
        · obtain ⟨l, hl, _⟩ := h
          rw [hfre] at hl
          exact absurd hl (List.not_mem_nil l)
      intro y hy
      induction hy with
      | seed => exact hq seed hcomp.2.2
      | step hra hok hmem hall iha => exact hq _ (hcomp.1 _ iha hok _ hmem hall)
    | some pr =>
      obtain ⟨x, rest⟩ := pr
      have hflag' : FlagInv co rest := fun l hl => hflag l (popMin_rest_mem hpop hl)
      by_cases hd : x.edgeId ∈ r.done
      · have hcomp' : CompInv rd co ob cv seed rest r := by
          refine ⟨hcomp.1, ?_, hcomp.2.2⟩
          intro q hqm
          rcases hcomp.2.1 q hqm with h | h
          · exact Or.inl h
          · obtain ⟨l, hl, hle⟩ := h
            rcases popMin_mem_split hpop hl with he | he
            · rw [he] at hle
              exact Or.inl (hle ▸ hd)
            · exact Or.inr ⟨l, he, hle⟩
        simp only [expandLoop, hpop, ShouldExpand_settled cv x.skip hd] at hst ⊢
        exact ih rest r (prov || false) hflag' hcomp' hst
      · by_cases hc : (insert x.edgeId r.done).card = r.max_reach_
        · simp only [expandLoop, hpop, ShouldExpand_stop cv x.skip hd hc] at hst
          simp at hst
        · by_cases hs : (cv && x.skip) = true
          · have hokf : expandOk co cv x.edgeId = false := by
              have hfx := hflag x (popMin_mem hpop)
              simp only [expandOk, ← hfx]
              simp [hs]
            have hcomp' : CompInv rd co ob cv seed rest
                { r with done := insert x.edgeId r.done } := by
              refine ⟨?_, ?_, hcomp.2.2⟩
              · intro a ha hoka
                rcases Finset.mem_insert.1 ha with h | h
                · rw [h] at hoka
                  rw [hokf] at hoka
                  exact absurd hoka (by simp)
                · exact hcomp.1 a h hoka
              · intro q hqm
                rcases hcomp.2.1 q hqm with h | h
                · exact Or.inl (Finset.mem_insert_of_mem h)
                · obtain ⟨l, hl, hle⟩ := h
                  rcases popMin_mem_split hpop hl with he | he
                  · rw [he] at hle
                    exact Or.inl (hle ▸ Finset.mem_insert_self _ _)
                  · exact Or.inr ⟨l, he, hle⟩
            simp only [expandLoop, hpop, ShouldExpand_skip hd hc hs] at hst ⊢
            exact ih rest _ _ hflag' hcomp' hst
          · have hcomp' : CompInv rd co ob cv seed
                (enqueue co x.cost (adjacency rd ob x.edgeId) rest
                  { r with done := insert x.edgeId r.done }).1
                (enqueue co x.cost (adjacency rd ob x.edgeId) rest
                  { r with done := insert x.edgeId r.done }).2 := by
              refine ⟨?_, ?_, ?_⟩
              · intro a ha hoka b hb hball
                rw [enqueue_done] at ha
                rcases Finset.mem_insert.1 ha with h | h
                · rw [h] at hb
                  exact enqueue_mem_queue co x.cost _ rest _ b hb hball
                · exact enqueue_queue_subset co x.cost _ rest _
                    (hcomp.1 a h hoka b hb hball)
              · intro q hqm
                rcases enqueue_queue_covered co x.cost _ rest _ q hqm with h | h
                · rcases hcomp.2.1 q h with h2 | h2
                  · rw [enqueue_done]
                    exact Or.inl (Finset.mem_insert_of_mem h2)
                  · obtain ⟨l, hl, hle⟩ := h2
                    rcases popMin_mem_split hpop hl with he | he
                    · rw [he] at hle
                      rw [enqueue_done]
                      exact Or.inl (hle ▸ Finset.mem_insert_self _ _)
                    · exact Or.inr ⟨l, enqueue_frontier_mem co x.cost _ rest _ he, hle⟩
                · exact Or.inr h
              · exact enqueue_queue_subset co x.cost _ rest _ hcomp.2.2
            simp only [expandLoop, hpop,
              ShouldExpand_cont hd hc (Bool.not_eq_true _ ▸ hs)] at hst ⊢
            exact ih _ _ _ (enqueue_FlagInv co x.cost _ rest _ hflag') hcomp' hst

theorem expandLoop_step_insert_subset (rd : GraphReader) (co : DynamicCost)
    (ob cv : Bool) (fuel : Nat) {fr rest : List Label} {x : Label} (r : Reach)
    (p : Bool) (hpop : popMin fr = some (x, rest)) (hd : x.edgeId ∉ r.done) :
    insert x.edgeId r.done ⊆
      (expandLoop rd co ob cv (fuel + 1) fr r p).1.done := by
  by_cases hc : (insert x.edgeId r.done).card = r.max_reach_
  · simp only [expandLoop, hpop, ShouldExpand_stop cv x.skip hd hc]
    exact Finset.Subset.refl _
  · by_cases hs : (cv && x.skip) = true
    · simp only [expandLoop, hpop, ShouldExpand_skip hd hc hs]
      exact expandLoop_done_subset rd co ob cv fuel rest
        { r with done := insert x.edgeId r.done } (p || true)
    · simp only [expandLoop, hpop, ShouldExpand_cont hd hc (Bool.not_eq_true _ ▸ hs)]
      have h := expandLoop_done_subset rd co ob cv fuel
        (enqueue co x.cost (adjacency rd ob x.edgeId) rest
          { r with done := insert x.edgeId r.done }).1
        (enqueue co x.cost (adjacency rd ob x.edgeId) rest
          { r with done := insert x.edgeId r.done }).2 (p || false)
      rw [enqueue_done] at h
      exact h

theorem expandLoop_mono (rd : GraphReader) (co : DynamicCost) (ob cv : Bool) :
    ∀ (fuel : Nat) (fr : List Label) (r1 r2 : Reach) (p1 p2 : Bool),
    r1.done = r2.done → r1.queue = r2.queue → r1.max_reach_ ≤ r2.max_reach_ →
    r1.done.card < r1.max_reach_ →
    (expandLoop rd co ob cv fuel fr r1 p1).1.done.card ≤
      (expandLoop rd co ob cv fuel fr r2 p2).1.done.card := by
  intro fuel
  induction fuel with
  | zero =>
    intro fr r1 r2 p1 p2 hdone _ _ _
    simp [expandLoop, hdone]
  | succ fuel ih =>
    intro fr r1 r2 p1 p2 hdone hqueue hmax hlt
    cases hpop : popMin fr with
    | none => simp [expandLoop, hpop, hdone]
    | some pr =>
      obtain ⟨x, rest⟩ := pr
      by_cases hd : x.edgeId ∈ r1.done
      · have hd2 : x.edgeId ∈ r2.done := hdone ▸ hd
        simp only [expandLoop, hpop, ShouldExpand_settled cv x.skip hd,
          ShouldExpand_settled cv x.skip hd2]
        exact ih rest r1 r2 _ _ hdone hqueue hmax hlt
      · have hd2 : x.edgeId ∉ r2.done := hdone ▸ hd
        have hcard : (insert x.edgeId r1.done).card = r1.done.card + 1 :=
          Finset.card_insert_of_not_mem hd
        have hceq : (insert x.edgeId r1.done).card = (insert x.edgeId r2.done).card := by
          rw [hdone]
        by_cases hc1 : (insert x.edgeId r1.done).card = r1.max_reach_
        · have hL : (expandLoop rd co ob cv (fuel + 1) fr r1 p1).1.done =
              insert x.edgeId r1.done := by
            simp only [expandLoop, hpop, ShouldExpand_stop cv x.skip hd hc1]
          rw [hL]
          have hsub := expandLoop_step_insert_subset rd co ob cv fuel r2 p2 hpop hd2
          calc (insert x.edgeId r1.done).card
              = (insert x.edgeId r2.done).card := hceq
            _ ≤ _ := Finset.card_le_card hsub
        · have hlt1 : (insert x.edgeId r1.done).card < r1.max_reach_ := by omega
          have hc2 : (insert x.edgeId r2.done).card ≠ r2.max_reach_ := by omega
          by_cases hs : (cv && x.skip) = true
          · simp only [expandLoop, hpop, ShouldExpand_skip hd hc1 hs,
              ShouldExpand_skip hd2 hc2 hs]
            refine ih rest { r1 with done := insert x.edgeId r1.done }
              { r2 with done := insert x.edgeId r2.done } _ _ ?_ ?_ ?_ ?_
            · simp only
              rw [hdone]
            · simpa using hqueue
            · simpa using hmax
            · simpa using hlt1
          · have hsb : (cv && x.skip) = false := Bool.not_eq_true _ ▸ hs
            simp only [expandLoop, hpop, ShouldExpand_cont hd hc1 hsb,
              ShouldExpand_cont hd2 hc2 hsb]
            have hqeq : ({ r1 with done := insert x.edgeId r1.done } : Reach).queue =
                ({ r2 with done := insert x.edgeId r2.done } : Reach).queue := by
              simpa using hqueue
            have hcg := enqueue_congr co x.cost (adjacency rd ob x.edgeId) rest
              { r1 with done := insert x.edgeId r1.done }
              { r2 with done := insert x.edgeId r2.done } hqeq
            rw [hcg.1]
            refine ih _ _ _ _ _ ?_ ?_ ?_ ?_
            · rw [enqueue_done, enqueue_done]
              simp only
              rw [hdone]
            · exact hcg.2
            · rw [enqueue_max, enqueue_max]
              simpa using hmax
            · rw [enqueue_done, enqueue_max]
              simpa using hlt1

/-! Facts at the level of one direction's expansion. -/

theorem Clear_queue (r : Reach) : (Reach.Clear r).queue = ∅ := rfl

theorem Clear_done (r : Reach) : (Reach.Clear r).done = ∅ := rfl

theorem Clear_max (r : Reach) : (Reach.Clear r).max_reach_ = r.max_reach_ := rfl

theorem Expand_max (rd : GraphReader) (co : DynamicCost) (ob cv : Bool)
    (fuel seed : Nat) (r : Reach) :
    (Expand rd co ob cv fuel seed r).1.max_reach_ = r.max_reach_ := by
  simp only [Expand, Reach.Clear]
  exact expandLoop_max rd co ob cv fuel _ _ _

theorem Expand_congr (rd : GraphReader) (co : DynamicCost) (ob cv : Bool)
    (fuel seed : Nat) {r1 r2 : Reach} (h : r1.max_reach_ = r2.max_reach_) :
    Expand rd co ob cv fuel seed r1 = Expand rd co ob cv fuel seed r2 := by
  simp only [Expand, Reach.Clear]
  rw [h]

theorem Expand_card_le (rd : GraphReader) (co : DynamicCost) (ob cv : Bool)
    (fuel seed : Nat) (r : Reach) (h : 1 ≤ r.max_reach_) :
    (Expand rd co ob cv fuel seed r).1.done.card ≤ r.max_reach_ := by
  simp only [Expand, Reach.Clear]
  exact expandLoop_card_le_max rd co ob cv fuel _ _ false (by simpa using h)

theorem Expand_mono (rd : GraphReader) (co : DynamicCost) (ob cv : Bool)
    (fuel seed : Nat) {r1 r2 : Reach} (ht : 1 ≤ r1.max_reach_)
    (hm : r1.max_reach_ ≤ r2.max_reach_) :
    (Expand rd co ob cv fuel seed r1).1.done.card ≤
      (Expand rd co ob cv fuel seed r2).1.done.card := by
  simp only [Expand, Reach.Clear]
  exact expandLoop_mono rd co ob cv fuel _ _ _ _ _ rfl rfl hm (by simpa using ht)

theorem directionReach_congr (rd : GraphReader) (co : DynamicCost) (ob : Bool)
    (fuel seed : Nat) {r1 r2 : Reach} (h : r1.max_reach_ = r2.max_reach_) :
    directionReach rd co ob fuel seed r1 = directionReach rd co ob fuel seed r2 := by
  have hE : Expand rd co ob true fuel seed r1 = Expand rd co ob true fuel seed r2 :=
    Expand_congr rd co ob true fuel seed h
  simp only [directionReach, hE]

theorem directionReach_le (rd : GraphReader) (co : DynamicCost) (ob : Bool)
    (fuel seed : Nat) (r : Reach) (h : 1 ≤ r.max_reach_) :
    (directionReach rd co ob fuel seed r).1 ≤ r.max_reach_ := by
  simp only [directionReach]
  split
  · have h1 : (1 : Nat) ≤ (Expand rd co ob true fuel seed r).1.max_reach_ := by
      rw [Expand_max]; exact h
    have h2 := Expand_card_le rd co ob false fuel seed
      (Expand rd co ob true fuel seed r).1 h1
    rw [Expand_max] at h2
    exact h2
  · exact Expand_card_le rd co ob true fuel seed r h

theorem directionReach_queue (rd : GraphReader) (co : DynamicCost) (ob : Bool)
    (fuel seed : Nat) (r : Reach) :
    (directionReach rd co ob fuel seed r).2.queue = ∅ ∧
      (directionReach rd co ob fuel seed r).2.done = ∅ := by
  simp only [directionReach]
  split
  · exact ⟨rfl, rfl⟩
  · exact ⟨rfl, rfl⟩

theorem directionReach_max (rd : GraphReader) (co : DynamicCost) (ob : Bool)
    (fuel seed : Nat) (r : Reach) :
    (directionReach rd co ob fuel seed r).2.max_reach_ = r.max_reach_ := by
  simp only [directionReach]
  split
  · rw [Clear_max, Expand_max, Expand_max]
  · rw [Clear_max, Expand_max]

theorem ReachableFrom_mono {adj : Nat → List Nat} {allowed ok1 ok2 : Nat → Bool}
    {seed y : Nat} (h : ∀ e, ok1 e = true → ok2 e = true)
    (hy : ReachableFrom adj allowed ok1 seed y) :
    ReachableFrom adj allowed ok2 seed y := by
  induction hy with
  | seed => exact ReachableFrom.seed
  | step hra hok hmem hall ih => exact ReachableFrom.step ih (h _ hok) hmem hall

/-- The conservative expansion never settles more edges than the exact
expansion run with the same seed, threshold and step budget: if the exact
run saturates its count is the threshold, which caps every run; if it
exhausts, its settled set contains the whole exact-reachable set, a
superset of everything the conservative run can settle; if its budget
runs out it settled one edge per step, again an upper bound. -/
theorem Expand_cons_le_exact (rd : GraphReader) (co : DynamicCost) (ob : Bool)
    (fuel seed : Nat) (r : Reach) (ht : 1 ≤ r.max_reach_) :
    (Expand rd co ob true fuel seed r).1.done.card ≤
      (Expand rd co ob false fuel seed r).1.done.card := by
  simp only [Expand, Reach.Clear]
  have hFresh : FreshInv [⟨seed, co.edgeCost seed, co.skippable seed⟩]
      { queue := insert seed ∅, done := ∅, max_reach_ := r.max_reach_ } := by
    refine ⟨by simp, Finset.empty_subset _, ?_, ?_⟩
    · intro l hl
      simp only [List.mem_singleton] at hl
      subst hl
      exact Finset.mem_insert_self _ _
    · intro l hl
      simp
  have hFlag : FlagInv co [⟨seed, co.edgeCost seed, co.skippable seed⟩] := by
    intro l hl
    simp only [List.mem_singleton] at hl
    subst hl
    rfl
  have hSound : SoundInv rd co ob true seed
      [⟨seed, co.edgeCost seed, co.skippable seed⟩]
      { queue := insert seed ∅, done := ∅, max_reach_ := r.max_reach_ } := by
    refine ⟨by simp, ?_⟩
    intro l hl
    simp only [List.mem_singleton] at hl
    subst hl
    exact ReachableFrom.seed
  have hComp : CompInv rd co ob false seed
      [⟨seed, co.edgeCost seed, co.skippable seed⟩]
      { queue := insert seed ∅, done := ∅, max_reach_ := r.max_reach_ } := by
    refine ⟨by simp, ?_, Finset.mem_insert_self _ _⟩
    intro q hq
    simp only [Finset.mem_insert, Finset.not_mem_empty, or_false] at hq
    subst hq
    exact Or.inr ⟨⟨q, co.edgeCost q, co.skippable q⟩, List.mem_singleton_self _, rfl⟩
  cases hst : (expandLoop rd co ob false fuel
      [⟨seed, co.edgeCost seed, co.skippable seed⟩]
      { queue := insert seed ∅, done := ∅, max_reach_ := r.max_reach_ } false).2.2 with
  | saturated =>
    have hE := expandLoop_saturated_card rd co ob false fuel _ _ false hst
    rw [hE]
    exact expandLoop_card_le_max rd co ob true fuel _ _ false (by simpa using ht)
  | exhausted =>
    have hsound := expandLoop_sound rd co ob true seed fuel _ _ false hFlag hSound
    have hcomp := expandLoop_complete rd co ob false seed fuel _ _ false hFlag hComp hst
    refine Finset.card_le_card ?_
    intro a ha
    exact hcomp a (ReachableFrom_mono (fun e _ => by simp [expandOk]) (hsound a ha))
  | fuelOut =>
    have hE := expandLoop_fuelOut_card rd co ob false fuel _ _ false hFresh hst
    have hC := expandLoop_card_le_fuel rd co ob true fuel
      [⟨seed, co.edgeCost seed, co.skippable seed⟩]
      { queue := insert seed ∅, done := ∅, max_reach_ := r.max_reach_ } false
    rw [hE]
    simpa using hC



theorem computeReach_result (edge : Option DirectedEdge) (edge_id max_reach : Nat)
    (rd : GraphReader) (co : DynamicCost) (direction fuel : Nat) (r : Reach)
    (hval : ¬(edge = none ∨ edge_id ∉ rd.edges ∨ max_reach = 0)) :
    (computeReach edge edge_id max_reach rd co direction fuel r).map Prod.fst = some
      ⟨(if Nat.land direction kOutbound ≠ 0 then
          (directionReach rd co true fuel edge_id ⟨∅, ∅, max_reach⟩).1 else 0) % 65536,
        (if Nat.land direction kInbound ≠ 0 then
          (directionReach rd co false fuel (rd.opposing edge_id) ⟨∅, ∅, max_reach⟩).1
        else 0) % 65536⟩ := by
  simp only [computeReach]
  rw [if_neg hval]
  have ho2 : (if Nat.land direction kOutbound ≠ 0 then
      directionReach rd co true fuel edge_id { r with max_reach_ := max_reach }
    else (0, { r with max_reach_ := max_reach })).2.max_reach_ = max_reach := by
    split
    · rw [directionReach_max]
    · rfl
  have hO : (if Nat.land direction kOutbound ≠ 0 then
      directionReach rd co true fuel edge_id { r with max_reach_ := max_reach }
    else (0, { r with max_reach_ := max_reach })).1 =
      (if Nat.land direction kOutbound ≠ 0 then
        (directionReach rd co true fuel edge_id ⟨∅, ∅, max_reach⟩).1 else 0) := by
    by_cases hdo : Nat.land direction kOutbound ≠ 0
    · rw [if_pos hdo, if_pos hdo,
        directionReach_congr rd co true fuel edge_id
          (show ({ r with max_reach_ := max_reach } : Reach).max_reach_ =
            (⟨∅, ∅, max_reach⟩ : Reach).max_reach_ from rfl)]
    · rw [if_neg hdo, if_neg hdo]
  have hI : (if Nat.land direction kInbound ≠ 0 then
      directionReach rd co false fuel (rd.opposing edge_id)
        (if Nat.land direction kOutbound ≠ 0 then
          directionReach rd co true fuel edge_id { r with max_reach_ := max_reach }
        else (0, { r with max_reach_ := max_reach })).2
    else (0, (if Nat.land direction kOutbound ≠ 0 then
      directionReach rd co true fuel edge_id { r with max_reach_ := max_reach }
    else (0, { r with max_reach_ := max_reach })).2)).1 =
      (if Nat.land direction kInbound ≠ 0 then
        (directionReach rd co false fuel (rd.opposing edge_id) ⟨∅, ∅, max_reach⟩).1
      else 0) := by
    by_cases hdi : Nat.land direction kInbound ≠ 0
    · rw [if_pos hdi, if_pos hdi,
        directionReach_congr rd co false fuel (rd.opposing edge_id)
          (show _ = (⟨∅, ∅, max_reach⟩ : Reach).max_reach_ from ho2)]
    · rw [if_neg hdi, if_neg hdi]
  simp only [Option.map_some']
  rw [hO, hI]

theorem exact_result (edge : Option DirectedEdge) (edge_id max_reach : Nat)
    (rd : GraphReader) (co : DynamicCost) (direction fuel : Nat) (r : Reach)
    (hval : ¬(edge = none ∨ edge_id ∉ rd.edges ∨ max_reach = 0)) :
    (Reach.exact edge edge_id max_reach rd co direction fuel r).map Prod.fst = some
      ⟨(if Nat.land direction kOutbound ≠ 0 then
          (Expand rd co true false fuel edge_id ⟨∅, ∅, max_reach⟩).1.done.card
        else 0) % 65536,
        (if Nat.land direction kInbound ≠ 0 then
          (Expand rd co false false fuel (rd.opposing edge_id)
            ⟨∅, ∅, max_reach⟩).1.done.card
        else 0) % 65536⟩ := by
  simp only [Reach.exact]
  rw [if_neg hval]
  have ho2 : (if Nat.land direction kOutbound ≠ 0 then
      ((Expand rd co true false fuel edge_id { r with max_reach_ := max_reach }).1.done.card,
        Reach.Clear (Expand rd co true false fuel edge_id { r with max_reach_ := max_reach }).1)
    else (0, { r with max_reach_ := max_reach })).2.max_reach_ = max_reach := by
    split
    · rw [Clear_max, Expand_max]
    · rfl
  have hO : (if Nat.land direction kOutbound ≠ 0 then
      ((Expand rd co true false fuel edge_id { r with max_reach_ := max_reach }).1.done.card,
        Reach.Clear (Expand rd co true false fuel edge_id { r with max_reach_ := max_reach }).1)
    else (0, { r with max_reach_ := max_reach })).1 =
      (if Nat.land direction kOutbound ≠ 0 then
        (Expand rd co true false fuel edge_id ⟨∅, ∅, max_reach⟩).1.done.card else 0) := by
    by_cases hdo : Nat.land direction kOutbound ≠ 0
    · rw [if_pos hdo, if_pos hdo,
        Expand_congr rd co true false fuel edge_id
          (show ({ r with max_reach_ := max_reach } : Reach).max_reach_ =
            (⟨∅, ∅, max_reach⟩ : Reach).max_reach_ from rfl)]
    · rw [if_neg hdo, if_neg hdo]
  have hI : (if Nat.land direction kInbound ≠ 0 then
      ((Expand rd co false false fuel (rd.opposing edge_id)
          (if Nat.land direction kOutbound ≠ 0 then
            ((Expand rd co true false fuel edge_id { r with max_reach_ := max_reach }).1.done.card,
              Reach.Clear (Expand rd co true false fuel edge_id
                { r with max_reach_ := max_reach }).1)
          else (0, { r with max_reach_ := max_reach })).2).1.done.card,
        Reach.Clear (Expand rd co false false fuel (rd.opposing edge_id)
          (if Nat.land direction kOutbound ≠ 0 then
            ((Expand rd co true false fuel edge_id { r with max_reach_ := max_reach }).1.done.card,
              Reach.Clear (Expand rd co true false fuel edge_id
                { r with max_reach_ := max_reach }).1)
          else (0, { r with max_reach_ := max_reach })).2).1)
    else (0, (if Nat.land direction kOutbound ≠ 0 then
      ((Expand rd co true false fuel edge_id { r with max_reach_ := max_reach }).1.done.card,
        Reach.Clear (Expand rd co true false fuel edge_id { r with max_reach_ := max_reach }).1)
    else (0, { r with max_reach_ := max_reach })).2)).1 =
      (if Nat.land direction kInbound ≠ 0 then
        (Expand rd co false false fuel (rd.opposing edge_id)
          ⟨∅, ∅, max_reach⟩).1.done.card
      else 0) := by
    by_cases hdi : Nat.land direction kInbound ≠ 0
    · rw [if_pos hdi, if_pos hdi,
        Expand_congr rd co false false fuel (rd.opposing edge_id)
          (show _ = (⟨∅, ∅, max_reach⟩ : Reach).max_reach_ from ho2)]
    · rw [if_neg hdi, if_neg hdi]
  simp only [Option.map_some']
  rw [hO, hI]

/-! The claims. -/

/-- C1: for every call of `computeReach` that returns a result (valid
edge, resolvable id, threshold at least one — invalid inputs return no
result at all), both fields of the returned `directed_reach` are at most
`max_reach`, for every direction mask: the two counters are non-negative
naturals saturated at the threshold. -/
theorem computeReach_saturates
    (edge : Option DirectedEdge) (edge_id max_reach : Nat) (rd : GraphReader)
    (co : DynamicCost) (direction fuel : Nat) (r : Reach)
    (res : directed_reach) (rf : Reach)
    (h : computeReach edge edge_id max_reach rd co direction fuel r = some (res, rf)) :
    res.outbound ≤ max_reach ∧ res.inbound ≤ max_reach := by
  by_cases hbad : edge = none ∨ edge_id ∉ rd.edges ∨ max_reach = 0
  · rw [computeReach, if_pos hbad] at h
    exact absurd h (by simp)
  · have hm : 1 ≤ max_reach := by
      rcases Nat.eq_zero_or_pos max_reach with h0 | h0
      · exact absurd (Or.inr (Or.inr h0)) hbad
      · exact h0
    simp only [computeReach] at h
    rw [if_neg hbad] at h
    simp only [Option.some.injEq, Prod.mk.injEq] at h
    obtain ⟨h1, h2⟩ := h
    subst h1
    have ho2 : (if Nat.land direction kOutbound ≠ 0 then
        directionReach rd co true fuel edge_id { r with max_reach_ := max_reach }
      else (0, { r with max_reach_ := max_reach })).2.max_reach_ = max_reach := by
      split
      · rw [directionReach_max]
      · rfl
    constructor
    · show (if Nat.land direction kOutbound ≠ 0 then
          directionReach rd co true fuel edge_id { r with max_reach_ := max_reach }
        else (0, { r with max_reach_ := max_reach })).1 % 65536 ≤ max_reach
      split
      · exact le_trans (Nat.mod_le _ _)
          (directionReach_le rd co true fuel edge_id _ hm)
      · simp
    · show (if Nat.land direction kInbound ≠ 0 then
          directionReach rd co false fuel (rd.opposing edge_id) _
        else (0, _)).1 % 65536 ≤ max_reach
      split
      · refine le_trans (Nat.mod_le _ _) ?_
        have := directionReach_le rd co false fuel (rd.opposing edge_id)
          (if Nat.land direction kOutbound ≠ 0 then
            directionReach rd co true fuel edge_id { r with max_reach_ := max_reach }
          else (0, { r with max_reach_ := max_reach })).2 (by rw [ho2]; exact hm)
        rw [ho2] at this
        exact this
      · simp

theorem computeReach_saturates_witness :
    (⟨3, 3⟩ : directed_reach).outbound ≤ 10 ∧
      (⟨3, 3⟩ : directed_reach).inbound ≤ 10 :=
  computeReach_saturates (some ⟨0⟩) 0 10 chainReader freeCost 3 20 ⟨∅, ∅, 0⟩
    ⟨3, 3⟩ ⟨∅, ∅, 10⟩ (by decide)

/-- C3: whenever the decision callback is invoked on an edge that is
already in the settled set, it returns prune, leaves the state unchanged,
and the settled count is not incremented — an edge identity is inserted
into the settled set at most once. -/
theorem ShouldExpand_settled_prune (cv s : Bool) (e : Nat) (r : Reach)
    (h : e ∈ r.done) :
    (ShouldExpand cv e s r).1 = .prune ∧
      (ShouldExpand cv e s r).2.1 = r ∧
      (ShouldExpand cv e s r).2.1.done.card = r.done.card := by
  rw [ShouldExpand_settled cv s h]
  exact ⟨rfl, rfl, rfl⟩

theorem ShouldExpand_settled_prune_witness :
    (ShouldExpand true 7 false ⟨∅, {7}, 5⟩).1 = .prune ∧
      (ShouldExpand true 7 false ⟨∅, {7}, 5⟩).2.1 = ⟨∅, {7}, 5⟩ ∧
      (ShouldExpand true 7 false ⟨∅, {7}, 5⟩).2.1.done.card =
        (⟨∅, {7}, 5⟩ : Reach).done.card :=
  ShouldExpand_settled_prune true false 7 ⟨∅, {7}, 5⟩ (by decide)

/-- C4: when settling an edge brings the settled count up to the
threshold, the decision callback returns stop, and the engine loop then
terminates at once with the saturated status: no further expansion occurs
for that direction, whatever frontier or step budget remains. -/
theorem ShouldExpand_threshold_stop (cv s : Bool) (e : Nat) (r : Reach)
    (h1 : e ∉ r.done) (h2 : (insert e r.done).card = r.max_reach_) :
    (ShouldExpand cv e s r).1 = .stop ∧
      ∀ (rd : GraphReader) (co : DynamicCost) (ob : Bool) (fuel : Nat)
        (fr rest : List Label) (x : Label) (prov : Bool),
        popMin fr = some (x, rest) → x.edgeId = e → x.skip = s →
        expandLoop rd co ob cv (fuel + 1) fr r prov =
          ({ r with done := insert e r.done }, prov, .saturated) := by
  constructor
  · rw [ShouldExpand_stop cv s h1 h2]
  · intro rd co ob fuel fr rest x prov hpop hxe hxs
    subst hxe
    subst hxs
    simp only [expandLoop, hpop, ShouldExpand_stop cv x.skip h1 h2, Bool.or_false]

theorem ShouldExpand_threshold_stop_witness :
    (ShouldExpand true 5 false ⟨∅, ∅, 1⟩).1 = .stop ∧
      expandLoop chainReader freeCost true true 4 [⟨5, 0, false⟩] ⟨∅, ∅, 1⟩ false =
        ({ (⟨∅, ∅, 1⟩ : Reach) with done := insert 5 ∅ }, false, .saturated) :=
  ⟨(ShouldExpand_threshold_stop true false 5 ⟨∅, ∅, 1⟩ (by decide) (by decide)).1,
    (ShouldExpand_threshold_stop true false 5 ⟨∅, ∅, 1⟩ (by decide) (by decide)).2
      chainReader freeCost true 3 [⟨5, 0, false⟩] [] ⟨5, 0, false⟩ false rfl rfl rfl⟩

/-- C5: the visitation tracker's two sets are both emptied by `Clear`;
every direction's expansion starts from the cleared state (so any state
left in the instance, including by a previous call or direction, is
irrelevant — this also covers the exact-fallback rerun, which runs
through the same `Expand` entry), and after a direction's expansion the
orchestrator leaves both sets empty again. -/
theorem visitation_tracker_reset (r : Reach) :
    ((Reach.Clear r).queue = ∅ ∧ (Reach.Clear r).done = ∅) ∧
      (∀ (rd : GraphReader) (co : DynamicCost) (ob cv : Bool) (fuel seed : Nat),
        Expand rd co ob cv fuel seed r = Expand rd co ob cv fuel seed (Reach.Clear r)) ∧
      ∀ (rd : GraphReader) (co : DynamicCost) (ob : Bool) (fuel seed : Nat),
        (directionReach rd co ob fuel seed r).2.queue = ∅ ∧
          (directionReach rd co ob fuel seed r).2.done = ∅ := by
  refine ⟨⟨rfl, rfl⟩, ?_, ?_⟩
  · intro rd co ob cv fuel seed
    exact Expand_congr rd co ob cv fuel seed rfl
  · intro rd co ob fuel seed
    exact directionReach_queue rd co ob fuel seed r

/-- C8: requesting only the outbound direction returns a result whose
inbound field is zero, and requesting only the inbound direction returns
a result whose outbound field is zero — the unrequested direction's
field stays at zero. -/
theorem computeReach_direction_isolation
    (edge : Option DirectedEdge) (edge_id max_reach : Nat) (rd : GraphReader)
    (co : DynamicCost) (fuel : Nat) (r : Reach) :
    (∀ (res : directed_reach) (rf : Reach),
      computeReach edge edge_id max_reach rd co kOutbound fuel r = some (res, rf) →
        res.inbound = 0) ∧
      ∀ (res : directed_reach) (rf : Reach),
        computeReach edge edge_id max_reach rd co kInbound fuel r = some (res, rf) →
          res.outbound = 0 := by
  constructor
  · intro res rf h
    by_cases hbad : edge = none ∨ edge_id ∉ rd.edges ∨ max_reach = 0
    · rw [computeReach, if_pos hbad] at h
      exact absurd h (by simp)
    · have e1 := computeReach_result edge edge_id max_reach rd co kOutbound fuel r hbad
      rw [h] at e1
      simp only [Option.map_some', Option.some.injEq] at e1
      rw [e1]
      simp [show Nat.land kOutbound kInbound = 0 from by decide]
  · intro res rf h
    by_cases hbad : edge = none ∨ edge_id ∉ rd.edges ∨ max_reach = 0
    · rw [computeReach, if_pos hbad] at h
      exact absurd h (by simp)
    · have e1 := computeReach_result edge edge_id max_reach rd co kInbound fuel r hbad
      rw [h] at e1
      simp only [Option.map_some', Option.some.injEq] at e1
      rw [e1]
      simp [show Nat.land kInbound kOutbound = 0 from by decide]

theorem computeReach_direction_isolation_witness :
    (⟨3, 0⟩ : directed_reach).inbound = 0 ∧ (⟨0, 3⟩ : directed_reach).outbound = 0 :=
  ⟨(computeReach_direction_isolation (some ⟨0⟩) 0 10 chainReader freeCost 20
      ⟨∅, ∅, 0⟩).1 ⟨3, 0⟩ ⟨∅, ∅, 10⟩ (by decide),
    (computeReach_direction_isolation (some ⟨0⟩) 0 10 chainReader freeCost 20
      ⟨∅, ∅, 0⟩).2 ⟨0, 3⟩ ⟨∅, ∅, 10⟩ (by decide)⟩

/-- C9: on invalid inputs — a null edge pointer, an edge id the reader
cannot resolve, or a non-positive threshold — `computeReach` fails fast
and never returns a normal `directed_reach` result. -/
theorem computeReach_fail_fast
    (edge : Option DirectedEdge) (edge_id max_reach : Nat) (rd : GraphReader)
    (co : DynamicCost) (direction fuel : Nat) (r : Reach)
    (h : edge = none ∨ edge_id ∉ rd.edges ∨ max_reach = 0) :
    computeReach edge edge_id max_reach rd co direction fuel r = none := by
  rw [computeReach, if_pos h]

theorem computeReach_fail_fast_witness :
    computeReach none 0 10 chainReader freeCost 3 20 ⟨∅, ∅, 0⟩ = none :=
  computeReach_fail_fast none 0 10 chainReader freeCost 3 20 ⟨∅, ∅, 0⟩ (Or.inl rfl)

/-- C2: for every seed, threshold and direction, the conservative
expansion's settled count is at most the exact expansion's settled count;
and whenever the conservative pass ends below the threshold having pruned
at least one restriction-skippable edge (the provisional flag), the count
the orchestrator returns for that direction is the exact-mode count — the
exact fallback's result replaces the conservative one. -/
theorem conservative_refines_exact (rd : GraphReader) (co : DynamicCost) (ob : Bool)
    (fuel seed : Nat) (r : Reach) (ht : 1 ≤ r.max_reach_) :
    (Expand rd co ob true fuel seed r).1.done.card ≤
      (Expand rd co ob false fuel seed r).1.done.card ∧
      ((Expand rd co ob true fuel seed r).2.1 = true →
        (Expand rd co ob true fuel seed r).1.done.card < r.max_reach_ →
        (directionReach rd co ob fuel seed r).1 =
          (Expand rd co ob false fuel seed r).1.done.card) := by
  constructor
  · exact Expand_cons_le_exact rd co ob fuel seed r ht
  · intro hprov hbelow
    simp only [directionReach]
    rw [if_pos ⟨hprov, by rw [Expand_max]; exact hbelow⟩]
    rw [Expand_congr rd co ob false fuel seed (Expand_max rd co ob true fuel seed r)]

theorem conservative_refines_exact_witness :
    (Expand chainReader skipCost true true 20 0 ⟨∅, ∅, 10⟩).1.done.card ≤
      (Expand chainReader skipCost true false 20 0 ⟨∅, ∅, 10⟩).1.done.card ∧
      ((Expand chainReader skipCost true true 20 0 ⟨∅, ∅, 10⟩).2.1 = true →
        (Expand chainReader skipCost true true 20 0 ⟨∅, ∅, 10⟩).1.done.card < 10 →
        (directionReach chainReader skipCost true 20 0 ⟨∅, ∅, 10⟩).1 =
          (Expand chainReader skipCost true false 20 0 ⟨∅, ∅, 10⟩).1.done.card) :=
  conservative_refines_exact chainReader skipCost true 20 0 ⟨∅, ∅, 10⟩ (by decide)

/-- C6: with identical inputs, two sequential calls of `computeReach` on
the same instance yield identical results: the internal state is reset on
every call, so the second call's result equals the first call's. -/
theorem computeReach_repeatable
    (edge : Option DirectedEdge) (edge_id max_reach : Nat) (rd : GraphReader)
    (co : DynamicCost) (direction fuel : Nat) (r r1 r2 : Reach)
    (res1 res2 : directed_reach)
    (h1 : computeReach edge edge_id max_reach rd co direction fuel r = some (res1, r1))
    (h2 : computeReach edge edge_id max_reach rd co direction fuel r1 = some (res2, r2)) :
    res2 = res1 := by
  by_cases hbad : edge = none ∨ edge_id ∉ rd.edges ∨ max_reach = 0
  · rw [computeReach, if_pos hbad] at h1
    exact absurd h1 (by simp)
  · have e1 := computeReach_result edge edge_id max_reach rd co direction fuel r hbad
    have e2 := computeReach_result edge edge_id max_reach rd co direction fuel r1 hbad
    rw [h1] at e1
    rw [h2] at e2
    simp only [Option.map_some', Option.some.injEq] at e1 e2
    rw [e1, e2]

theorem computeReach_repeatable_witness :
    (⟨3, 3⟩ : directed_reach) = ⟨3, 3⟩ :=
  computeReach_repeatable (some ⟨0⟩) 0 10 chainReader freeCost 3 20
    ⟨∅, ∅, 0⟩ ⟨∅, ∅, 10⟩ ⟨∅, ∅, 10⟩ ⟨3, 3⟩ ⟨3, 3⟩ (by decide) (by decide)

/-- C10: both fields of the packed result are 16-bit bitfields, so any
returned result satisfies `outbound < 65536` and `inbound < 65536` (the
stored counts are reduced modulo 2 to the 16); consequently, whenever the
32-bit threshold parameter is 65536 or more, no returned field can equal
the threshold, even when the underlying count reached it. -/
theorem directed_reach_sixteen_bits
    (edge : Option DirectedEdge) (edge_id max_reach : Nat) (rd : GraphReader)
    (co : DynamicCost) (direction fuel : Nat) (r : Reach)
    (res : directed_reach) (rf : Reach)
    (h : computeReach edge edge_id max_reach rd co direction fuel r = some (res, rf)) :
    res.outbound < 65536 ∧ res.inbound < 65536 ∧
      (65536 ≤ max_reach → res.outbound ≠ max_reach ∧ res.inbound ≠ max_reach) := by
  by_cases hbad : edge = none ∨ edge_id ∉ rd.edges ∨ max_reach = 0
  · rw [computeReach, if_pos hbad] at h
    exact absurd h (by simp)
  · have e1 := computeReach_result edge edge_id max_reach rd co direction fuel r hbad
    rw [h] at e1
    simp only [Option.map_some', Option.some.injEq] at e1
    rw [e1]
    refine ⟨Nat.mod_lt _ (by norm_num), Nat.mod_lt _ (by norm_num), ?_⟩
    intro hbig
    constructor
    · exact Nat.ne_of_lt (lt_of_lt_of_le (Nat.mod_lt _ (by norm_num)) hbig)
    · exact Nat.ne_of_lt (lt_of_lt_of_le (Nat.mod_lt _ (by norm_num)) hbig)

theorem directed_reach_sixteen_bits_witness :
    (⟨3, 3⟩ : directed_reach).outbound < 65536 ∧
      (⟨3, 3⟩ : directed_reach).inbound < 65536 ∧
      (65536 ≤ 65536 →
        (⟨3, 3⟩ : directed_reach).outbound ≠ 65536 ∧
          (⟨3, 3⟩ : directed_reach).inbound ≠ 65536) :=
  directed_reach_sixteen_bits (some ⟨0⟩) 0 65536 chainReader freeCost 3 20
    ⟨∅, ∅, 0⟩ ⟨3, 3⟩ ⟨∅, ∅, 65536⟩ (by decide)

theorem init_FreshInv (co : DynamicCost) (seed t : Nat) :
    FreshInv [⟨seed, co.edgeCost seed, co.skippable seed⟩] ⟨insert seed ∅, ∅, t⟩ := by
  refine ⟨by simp, Finset.empty_subset _, ?_, ?_⟩
  · intro l hl
    simp only [List.mem_singleton] at hl
    subst hl
    exact Finset.mem_insert_self _ _
  · intro l hl
    simp

theorem init_FlagInv (co : DynamicCost) (seed : Nat) :
    FlagInv co [⟨seed, co.edgeCost seed, co.skippable seed⟩] := by
  intro l hl
  simp only [List.mem_singleton] at hl
  subst hl
  rfl

theorem init_CompInv (rd : GraphReader) (co : DynamicCost) (ob cv : Bool)
    (seed t : Nat) :
    CompInv rd co ob cv seed [⟨seed, co.edgeCost seed, co.skippable seed⟩]
      ⟨insert seed ∅, ∅, t⟩ := by
  refine ⟨by simp, ?_, Finset.mem_insert_self _ _⟩
  intro q hq
  simp only [Finset.mem_insert, Finset.not_mem_empty, or_false] at hq
  subst hq
  exact Or.inr ⟨⟨q, co.edgeCost q, co.skippable q⟩, List.mem_singleton_self _, rfl⟩

theorem infinite_chain_count (t fuel : Nat) (h1 : 1 ≤ t) (h2 : t < fuel) :
    (Expand chainToInfinity freeCost true false fuel 0 ⟨∅, ∅, t⟩).1.done.card = t := by
  have hRF : ∀ k, ReachableFrom (adjacency chainToInfinity true) freeCost.allowed
      (expandOk freeCost false) 0 k := by
    intro k
    induction k with
    | zero => exact ReachableFrom.seed
    | succ k ih =>
      refine ReachableFrom.step ih rfl ?_ rfl
      show k + 1 ∈ adjacency chainToInfinity true k
      simp [adjacency, chainToInfinity]
  simp only [Expand, Reach.Clear]
  cases hst : (expandLoop chainToInfinity freeCost true false fuel
      [⟨0, freeCost.edgeCost 0, freeCost.skippable 0⟩]
      { queue := insert 0 ∅, done := ∅, max_reach_ := t } false).2.2 with
  | saturated =>
    exact expandLoop_saturated_card chainToInfinity freeCost true false fuel _ _ false hst
  | exhausted =>
    exfalso
    have hcomp := expandLoop_complete chainToInfinity freeCost true false 0 fuel
      [⟨0, freeCost.edgeCost 0, freeCost.skippable 0⟩]
      ⟨insert 0 ∅, ∅, t⟩ false (init_FlagInv freeCost 0)
      (init_CompInv chainToInfinity freeCost true false 0 t) hst
    have hsub : Finset.range ((expandLoop chainToInfinity freeCost true false fuel
        [⟨0, freeCost.edgeCost 0, freeCost.skippable 0⟩]
        { queue := insert 0 ∅, done := ∅, max_reach_ := t } false).1.done.card + 1) ⊆
        (expandLoop chainToInfinity freeCost true false fuel
        [⟨0, freeCost.edgeCost 0, freeCost.skippable 0⟩]
        { queue := insert 0 ∅, done := ∅, max_reach_ := t } false).1.done := by
      intro k _
      exact hcomp k (hRF k)
    have hle := Finset.card_le_card hsub
    rw [Finset.card_range] at hle
    omega
  | fuelOut =>
    exfalso
    have hE := expandLoop_fuelOut_card chainToInfinity freeCost true false fuel
      [⟨0, freeCost.edgeCost 0, freeCost.skippable 0⟩]
      ⟨insert 0 ∅, ∅, t⟩ false (init_FreshInv freeCost 0 t) hst
    have hcap := expandLoop_card_le_max chainToInfinity freeCost true false fuel
      [⟨0, freeCost.edgeCost 0, freeCost.skippable 0⟩]
      ⟨insert 0 ∅, ∅, t⟩ false (by simpa using h1)
    rw [hE] at hcap
    simp only [Finset.card_empty] at hcap
    omega

/-- C7 counterexample: the claim as stated fails for the publicly
reported counts, because the result fields are 16-bit bitfields.  On the
unbounded forward chain, with thresholds 65535 and 65536 (both reached by
the expansion), the reported outbound count drops from 65535 to 0 when
the threshold increases, so the reported counts are not monotone in the
threshold. -/
theorem exact_monotone_counterexample :
    ((1 : Nat) ≤ 65535 ∧ (65535 : Nat) ≤ 65536) ∧
      (Reach.exact (some ⟨0⟩) 0 65535 chainToInfinity freeCost kOutbound 70000
          ⟨∅, ∅, 0⟩).map Prod.fst = some ⟨65535, 0⟩ ∧
      (Reach.exact (some ⟨0⟩) 0 65536 chainToInfinity freeCost kOutbound 70000
          ⟨∅, ∅, 0⟩).map Prod.fst = some ⟨0, 0⟩ ∧
      ¬((65535 : Nat) ≤ 0) := by
  refine ⟨⟨by norm_num, by norm_num⟩, ?_, ?_, by norm_num⟩
  · have hval : ¬((some (⟨0⟩ : DirectedEdge) : Option DirectedEdge) = none ∨
        (0 : Nat) ∉ chainToInfinity.edges ∨ (65535 : Nat) = 0) := by decide
    rw [exact_result (some ⟨0⟩) 0 65535 chainToInfinity freeCost kOutbound 70000
      ⟨∅, ∅, 0⟩ hval]
    rw [if_pos (show Nat.land kOutbound kOutbound ≠ 0 by decide)]
    rw [if_neg (show ¬Nat.land kOutbound kInbound ≠ 0 by decide)]
    rw [infinite_chain_count 65535 70000 (by norm_num) (by norm_num)]
  · have hval : ¬((some (⟨0⟩ : DirectedEdge) : Option DirectedEdge) = none ∨
        (0 : Nat) ∉ chainToInfinity.edges ∨ (65536 : Nat) = 0) := by decide
    rw [exact_result (some ⟨0⟩) 0 65536 chainToInfinity freeCost kOutbound 70000
      ⟨∅, ∅, 0⟩ hval]
    rw [if_pos (show Nat.land kOutbound kOutbound ≠ 0 by decide)]
    rw [if_neg (show ¬Nat.land kOutbound kInbound ≠ 0 by decide)]
    rw [infinite_chain_count 65536 70000 (by norm_num) (by norm_num)]

/-- C7 (amended): in exact mode, with graph, costing and seed fixed, the
per-direction settled counts are monotonically non-decreasing in the
threshold; and the counts reported through the packed 16-bit result of
`Reach.exact` are monotonically non-decreasing provided the larger
threshold fits the 16-bit field (below 65536). -/
theorem exact_monotone (rd : GraphReader) (co : DynamicCost) (fuel seed t1 t2 : Nat)
    (h1 : 1 ≤ t1) (h12 : t1 ≤ t2) :
    (∀ ob : Bool,
      (Expand rd co ob false fuel seed ⟨∅, ∅, t1⟩).1.done.card ≤
        (Expand rd co ob false fuel seed ⟨∅, ∅, t2⟩).1.done.card) ∧
      (t2 < 65536 →
        ∀ (edge : Option DirectedEdge) (edge_id direction : Nat) (ra rb : Reach)
          (res1 : directed_reach) (rf1 : Reach) (res2 : directed_reach) (rf2 : Reach),
          Reach.exact edge edge_id t1 rd co direction fuel ra = some (res1, rf1) →
          Reach.exact edge edge_id t2 rd co direction fuel rb = some (res2, rf2) →
          res1.outbound ≤ res2.outbound ∧ res1.inbound ≤ res2.inbound) := by
  constructor
  · intro ob
    exact Expand_mono rd co ob false fuel seed h1 h12
  · intro hlt edge edge_id direction ra rb res1 rf1 res2 rf2 hx1 hx2
    by_cases hbad1 : edge = none ∨ edge_id ∉ rd.edges ∨ t1 = 0
    · rw [Reach.exact, if_pos hbad1] at hx1
      exact absurd hx1 (by simp)
    · have hbad2 : ¬(edge = none ∨ edge_id ∉ rd.edges ∨ t2 = 0) := by
        intro hc
        rcases hc with hc | hc | hc
        · exact hbad1 (Or.inl hc)
        · exact hbad1 (Or.inr (Or.inl hc))
        · omega
      have e1 := exact_result edge edge_id t1 rd co direction fuel ra hbad1
      have e2 := exact_result edge edge_id t2 rd co direction fuel rb hbad2
      rw [hx1] at e1
      rw [hx2] at e2
      simp only [Option.map_some', Option.some.injEq] at e1 e2
      rw [e1, e2]
      constructor
      · show (if Nat.land direction kOutbound ≠ 0 then
            (Expand rd co true false fuel edge_id ⟨∅, ∅, t1⟩).1.done.card
          else 0) % 65536 ≤
            (if Nat.land direction kOutbound ≠ 0 then
              (Expand rd co true false fuel edge_id ⟨∅, ∅, t2⟩).1.done.card
            else 0) % 65536
        by_cases hdo : Nat.land direction kOutbound ≠ 0
        · rw [if_pos hdo, if_pos hdo]
          rw [Nat.mod_eq_of_lt (lt_of_le_of_lt
            (Expand_card_le rd co true false fuel edge_id ⟨∅, ∅, t1⟩ h1)
            (lt_of_le_of_lt h12 hlt))]
          rw [Nat.mod_eq_of_lt (lt_of_le_of_lt
            (Expand_card_le rd co true false fuel edge_id ⟨∅, ∅, t2⟩ (h1.trans h12)) hlt)]
          exact Expand_mono rd co true false fuel edge_id h1 h12
        · rw [if_neg hdo, if_neg hdo]
      · show (if Nat.land direction kInbound ≠ 0 then
            (Expand rd co false false fuel (rd.opposing edge_id)
              ⟨∅, ∅, t1⟩).1.done.card
          else 0) % 65536 ≤
            (if Nat.land direction kInbound ≠ 0 then
              (Expand rd co false false fuel (rd.opposing edge_id)
                ⟨∅, ∅, t2⟩).1.done.card
            else 0) % 65536
        by_cases hdi : Nat.land direction kInbound ≠ 0
        · rw [if_pos hdi, if_pos hdi]
          rw [Nat.mod_eq_of_lt (lt_of_le_of_lt
            (Expand_card_le rd co false false fuel (rd.opposing edge_id)
              ⟨∅, ∅, t1⟩ h1) (lt_of_le_of_lt h12 hlt))]
          rw [Nat.mod_eq_of_lt (lt_of_le_of_lt
            (Expand_card_le rd co false false fuel (rd.opposing edge_id)
              ⟨∅, ∅, t2⟩ (h1.trans h12)) hlt)]
          exact Expand_mono rd co false false fuel (rd.opposing edge_id) h1 h12
        · rw [if_neg hdi, if_neg hdi]

theorem exact_monotone_witness :
    ((Expand chainReader freeCost true false 20 0 ⟨∅, ∅, 2⟩).1.done.card ≤
      (Expand chainReader freeCost true false 20 0 ⟨∅, ∅, 3⟩).1.done.card) ∧
      ((⟨2, 2⟩ : directed_reach).outbound ≤ (⟨3, 3⟩ : directed_reach).outbound ∧
        (⟨2, 2⟩ : directed_reach).inbound ≤ (⟨3, 3⟩ : directed_reach).inbound) :=
  ⟨(exact_monotone chainReader freeCost 20 0 2 3 (by decide) (by decide)).1 true,
    (exact_monotone chainReader freeCost 20 0 2 3 (by decide) (by decide)).2 (by decide)
      (some ⟨0⟩) 0 3 ⟨∅, ∅, 0⟩ ⟨∅, ∅, 0⟩ ⟨2, 2⟩ ⟨∅, ∅, 2⟩ ⟨3, 3⟩ ⟨∅, ∅, 3⟩
      (by decide) (by decide)⟩
